import Mathlib

set_option linter.dupNamespace false

/-!
# EmoCrypt verification

Shallow embedding of the EmoCrypt JavaScript library (emoji nibble codec,
passphrase-seeded alphabet shuffle, AES-GCM envelope format) together with
proofs of the specification claims.

Modelling conventions:

* JavaScript 32-bit integer arithmetic is modelled on `Nat`, working with the
  unsigned 32-bit pattern: `Math.imul a b` is `(a * b) % 2^32`, `x >>> k` is
  `Nat` right shift (division by `2^k`), `x << k` truncated to 32 bits is
  `(x <<< k) % 2^32`, and `|` / `&` / `^` are the `Nat` bitwise operations.
  These agree with JavaScript's two's-complement operations at the bit-pattern
  level.
* A JavaScript string is modelled as the list of its UTF-16 code units
  (`List Nat`) where the source operates on `.length` / `.charCodeAt`
  (the `xmur3` hash), and as the list of its Unicode scalar values where the
  source operates on text (TextEncoder / TextDecoder).
* Every emoji symbol reachable in the claims (the base set and its
  permutations) is a single Unicode code point, so a symbol is modelled as
  `Char`; this matches the `[...str]` code-point splitting done by
  `emojiDecode`.
* WebCrypto (`crypto.subtle`) and its random source are external
  collaborators; they enter the model as explicit function and byte-list
  parameters.
* `TextDecoder` is used by the source with default options, i.e. in
  non-fatal replacement mode: invalid UTF-8 subsequences become U+FFFD.
  `utf8DecodeReplace` implements that (WHATWG) decoding algorithm.
-/

namespace EmoCrypt

/-- `2^32`, the JavaScript 32-bit wraparound modulus. -/
def M32 : Nat := 4294967296

theorem M32_eq : M32 = 2 ^ 32 := by decide

theorem M32_pos : 0 < M32 := by decide

/-- `Math.imul a b`: 32-bit multiplication, viewed as a bit pattern. -/
def imul (a b : Nat) : Nat := (a * b) % M32

theorem imul_lt (a b : Nat) : imul a b < M32 := Nat.mod_lt _ M32_pos

/-- One loop iteration of `xmur3`:
`h = Math.imul(h ^ str.charCodeAt(i), 3432918353); h = h << 13 | h >>> 19`. -/
def xmur3Step (h c : Nat) : Nat :=
  let h1 := imul (h ^^^ c) 3432918353
  ((h1 <<< 13) % M32) ||| (h1 >>> 19)

/-- The finalisation closure returned by `xmur3`, called exactly once by
`seededShuffle` (`xmur3(pass)()`). -/
def xmur3Final (h : Nat) : Nat :=
  let h1 := imul (h ^^^ (h >>> 16)) 2246822507
  let h2 := imul (h1 ^^^ (h1 >>> 13)) 3266489909
  h2 ^^^ (h2 >>> 16)

/-- `xmur3(pass)()`: the 32-bit seed derived from a passphrase, given as the
list of its UTF-16 code units (`charCodeAt` values).  `str.length` passes
through JavaScript's `ToInt32`, i.e. `% 2^32` at the bit-pattern level. -/
def xmur3Seed (s : List Nat) : Nat :=
  xmur3Final (s.foldl xmur3Step (1779033703 ^^^ (s.length % M32)))

/-- One call of the `mulberry32` closure: the updated state
(`a += 0x6D2B79F5`, kept as a 32-bit pattern) paired with the 32-bit output
pattern — the value the source divides by `2^32` to get a fraction. -/
def mulberryNext (a : Nat) : Nat × Nat :=
  let a2 := (a + 1831565813) % M32
  let t1 := imul (a2 ^^^ (a2 >>> 15)) (a2 ||| 1)
  let t2 := t1 ^^^ ((t1 + imul (t1 ^^^ (t1 >>> 7)) (t1 ||| 61)) % M32)
  (a2, t2 ^^^ (t2 >>> 14))

theorem mulberryNext_snd_lt (a : Nat) : (mulberryNext a).2 < M32 := by
  unfold mulberryNext
  simp only [M32_eq]
  refine Nat.xor_lt_two_pow (Nat.xor_lt_two_pow ?_ ?_) ?_
  · exact M32_eq ▸ imul_lt _ _
  · exact M32_eq ▸ Nat.mod_lt _ M32_pos
  · have hle : ∀ n : Nat, n >>> 14 ≤ n := fun n => by
      rw [Nat.shiftRight_eq_div_pow]; exact Nat.div_le_self _ _
    exact lt_of_le_of_lt (hle _)
      (Nat.xor_lt_two_pow (M32_eq ▸ imul_lt _ _) (M32_eq ▸ Nat.mod_lt _ M32_pos))

/-- `Math.floor(rnd() * (i + 1))` stays within `0 .. i` because the 32-bit
output pattern is below `2^32` (the float arithmetic in the source is exact at
these magnitudes, so the floor equals integer division by `2^32`). -/
theorem shuffle_j_le (x i : Nat) (hx : x < M32) : x * (i + 2) / M32 ≤ i + 1 := by
  have h : x * (i + 2) / M32 < i + 2 := by
    rw [Nat.div_lt_iff_lt_mul M32_pos]
    calc x * (i + 2) < M32 * (i + 2) := Nat.mul_lt_mul_of_pos_right hx (by omega)
    _ = (i + 2) * M32 := Nat.mul_comm _ _
  omega

/-- The Fisher–Yates loop of `seededShuffle`
(`for (let i = out.length - 1; i > 0; i--)`), with the mulberry32 state
threaded explicitly.  `j = Math.floor(rnd() * (i + 1))` is `x * (i+1) / 2^32`
for the 32-bit output `x`. -/
def shuffleGo {α : Type} (st : Nat) (out : Array α) : Nat → Array α
  | 0 => out
  | i + 1 =>
    if h : i + 1 < out.size then
      shuffleGo (mulberryNext st).1
        (out.swap ⟨i + 1, h⟩
          ⟨(mulberryNext st).2 * (i + 2) / M32,
           lt_of_le_of_lt (shuffle_j_le _ i (mulberryNext_snd_lt st)) h⟩)
        i
    else out

/-- `seededShuffle(array, pass)`: copy the array (`array.slice()`) and run the
seeded Fisher–Yates loop from index `length - 1` down to `1`. -/
def seededShuffle {α : Type} (array : Array α) (pass : List Nat) : Array α :=
  shuffleGo (xmur3Seed pass) array (array.size - 1)

/-- `BASE_EMO = [..."😀😁😂🤣😃😄😅😆😉😊😋😎😍😘🥰😗"]` — sixteen single
code-point emoji. -/
def BASE_EMO : Array Char :=
  #['😀', '😁', '😂', '🤣', '😃', '😄', '😅', '😆',
    '😉', '😊', '😋', '😎', '😍', '😘', '🥰', '😗']

/-- A Unicode scalar value: what a well-formed JavaScript string (one without
lone surrogates) is a sequence of, and exactly the values `TextEncoder`
round-trips. -/
def ScalarValue (c : Nat) : Prop := c < 1114112 ∧ ¬(55296 ≤ c ∧ c ≤ 57343)

instance : DecidablePred ScalarValue := fun c => by
  unfold ScalarValue; infer_instance

/-- UTF-8 encoding of one scalar value (`TextEncoder` per code point). -/
def utf8EncodeChar (c : Nat) : List Nat :=
  if c < 128 then [c]
  else if c < 2048 then [192 + c / 64, 128 + c % 64]
  else if c < 65536 then [224 + c / 4096, 128 + (c / 64) % 64, 128 + c % 64]
  else [240 + c / 262144, 128 + (c / 4096) % 64, 128 + (c / 64) % 64, 128 + c % 64]

/-- `new TextEncoder().encode(str)`: UTF-8 bytes of the text, the text given
as its list of Unicode scalar values. -/
def utf8Encode (s : List Nat) : List Nat := s.flatMap utf8EncodeChar

/-- `new TextDecoder().decode(bytes)` with default options: the WHATWG UTF-8
decoder in replacement (non-fatal) mode.  Each maximal invalid subpart is
replaced by one U+FFFD (65533); the decoder never fails. -/
def utf8DecodeReplace : List Nat → List Nat
  | [] => []
  | b :: rest =>
    if b < 128 then b :: utf8DecodeReplace rest
    else if 194 ≤ b ∧ b ≤ 223 then
      match rest with
      | [] => [65533]
      | b2 :: rest2 =>
        if 128 ≤ b2 ∧ b2 ≤ 191 then
          ((b - 192) * 64 + (b2 - 128)) :: utf8DecodeReplace rest2
        else 65533 :: utf8DecodeReplace (b2 :: rest2)
    else if 224 ≤ b ∧ b ≤ 239 then
      match rest with
      | [] => [65533]
      | b2 :: rest2 =>
        if (224 < b ∨ 160 ≤ b2) ∧ (b ≠ 237 ∨ b2 ≤ 159) ∧ 128 ≤ b2 ∧ b2 ≤ 191 then
          match rest2 with
          | [] => [65533]
          | b3 :: rest3 =>
            if 128 ≤ b3 ∧ b3 ≤ 191 then
              ((b - 224) * 4096 + (b2 - 128) * 64 + (b3 - 128)) :: utf8DecodeReplace rest3
            else 65533 :: utf8DecodeReplace (b3 :: rest3)
        else 65533 :: utf8DecodeReplace (b2 :: rest2)
    else if 240 ≤ b ∧ b ≤ 244 then
      match rest with
      | [] => [65533]
      | b2 :: rest2 =>
        if (240 < b ∨ 144 ≤ b2) ∧ (b ≠ 244 ∨ b2 ≤ 143) ∧ 128 ≤ b2 ∧ b2 ≤ 191 then
          match rest2 with
          | [] => [65533]
          | b3 :: rest3 =>
            if 128 ≤ b3 ∧ b3 ≤ 191 then
              match rest3 with
              | [] => [65533]
              | b4 :: rest4 =>
                if 128 ≤ b4 ∧ b4 ≤ 191 then
                  ((b - 240) * 262144 + (b2 - 128) * 4096 + (b3 - 128) * 64 + (b4 - 128)) ::
                    utf8DecodeReplace rest4
                else 65533 :: utf8DecodeReplace (b4 :: rest4)
            else 65533 :: utf8DecodeReplace (b3 :: rest3)
        else 65533 :: utf8DecodeReplace (b2 :: rest2)
    else 65533 :: utf8DecodeReplace rest

/-- The error kinds the source can raise (each a `throw new Error(...)` in the
library, or a rejection from a collaborator), plus the failure modes of the
external `atob` / AEAD collaborators. -/
inductive Err where
  | unknownSymbol
  | malformedLength
  | invalidFormat
  | invalidBase64
  | authFailure
deriving DecidableEq

instance {ε α : Type} [DecidableEq ε] [DecidableEq α] : DecidableEq (Except ε α) := fun x y =>
  match x, y with
  | .ok a, .ok b =>
    if h : a = b then isTrue (by rw [h]) else isFalse (fun hc => by cases hc; exact h rfl)
  | .error a, .error b =>
    if h : a = b then isTrue (by rw [h]) else isFalse (fun hc => by cases hc; exact h rfl)
  | .ok _, .error _ => isFalse (fun hc => Except.noConfusion hc)
  | .error _, .ok _ => isFalse (fun hc => Except.noConfusion hc)

/-- Lookup in the `encMap` built by `buildMaps`: `encMap.set(i, arr[i])` for
each index, so a lookup is just indexing; a missing key gives JavaScript
`undefined`, modelled as `none`. -/
def encIdx (A : List Char) (i : Nat) : Option Char := A.get? i

/-- The write loop of `buildMaps` for `decMap`: later `decMap.set(arr[i], i)`
writes overwrite earlier ones, so a lookup returns the **last** index at which
the symbol occurs. -/
def decIdxGo (c : Char) : List Char → Nat → Option Nat → Option Nat
  | [], _, acc => acc
  | a :: as, i, acc => decIdxGo c as (i + 1) (if a = c then some i else acc)

/-- Lookup in the `decMap` built by `buildMaps`. -/
def decIdx (A : List Char) (c : Char) : Option Nat := decIdxGo c A 0 none

/-- The byte loop of `emojiEncode`:
`bytes.map(b => encMap.get(b >> 4) + encMap.get(b & 15))`.  A missing lookup
yields `undefined` in JavaScript (which would be pasted into the output as the
text "undefined"); the model makes that case explicit as `none`. -/
def emojiEncodeBytes (A : List Char) : List Nat → Option (List Char)
  | [] => some []
  | b :: rest => do
    let hi ← encIdx A (b >>> 4)
    let lo ← encIdx A (b &&& 15)
    let tail ← emojiEncodeBytes A rest
    pure (hi :: lo :: tail)

/-- `emojiEncode(str, emojiArr)`: UTF-8 encode the text, then map each byte to
the symbols of its high and low nibble. -/
def emojiEncode (s : List Nat) (A : List Char) : Option (List Char) :=
  emojiEncodeBytes A (utf8Encode s)

/-- The `chars.map` of `emojiDecode`: each code point is looked up in
`decMap`; the first unknown symbol throws. -/
def toNibbles (A : List Char) : List Char → Except Err (List Nat)
  | [] => .ok []
  | c :: rest =>
    match decIdx A c with
    | none => .error .unknownSymbol
    | some v => (toNibbles A rest).map (v :: ·)

/-- The byte-reassembly loop of `emojiDecode`:
`out[j++] = nibbles[i] << 4 | nibbles[i+1]`, the store into a `Uint8Array`
truncating to 8 bits. -/
def pairsToBytes : List Nat → List Nat
  | n1 :: n2 :: rest => (((n1 <<< 4) ||| n2) % 256) :: pairsToBytes rest
  | _ => []

/-- `emojiDecode(emojiStr, emojiArr)`: map symbols to nibbles (throwing on an
unknown symbol), reject an odd nibble count, reassemble bytes, and decode them
with the (replacement-mode) `TextDecoder`. -/
def emojiDecode (emojiStr : List Char) (A : List Char) : Except Err (List Nat) := do
  let nibbles ← toNibbles A emojiStr
  if nibbles.length % 2 ≠ 0 then .error .malformedLength
  else .ok (utf8DecodeReplace (pairsToBytes nibbles))

/-- The external WebCrypto collaborators (`crypto.subtle`): PBKDF2 key
derivation and the AES-GCM cipher, kept abstract.  `decrypt` returns `none`
exactly when AEAD authentication fails. -/
structure CryptoPrims where
  kdf : List Nat → List Nat → List Nat
  encrypt : List Nat → List Nat → List Nat → List Nat
  decrypt : List Nat → List Nat → List Nat → Option (List Nat)

/-- The Base64 alphabet used by `btoa` / `atob`. -/
def b64Alphabet : List Char :=
  "ABCDEFGHIJKLMNOPQRSTUVWXYZabcdefghijklmnopqrstuvwxyz0123456789+/".toList

/-- Character of a sextet value. -/
def sxChar (n : Nat) : Char := b64Alphabet.getD n '?'

def b64IndexGo (c : Char) : List Char → Nat → Option Nat
  | [], _ => none
  | a :: as, i => if a = c then some i else b64IndexGo c as (i + 1)

/-- Sextet value of a Base64 character (`none` for an invalid character). -/
def b64Index (c : Char) : Option Nat := b64IndexGo c b64Alphabet 0

/-- `btoa` on a byte list (the source builds the argument with
`String.fromCharCode(...buf)`, one char per byte): standard Base64 with
`=` padding. -/
def btoa : List Nat → List Char
  | [] => []
  | [b1] => [sxChar (b1 / 4), sxChar (b1 % 4 * 16), '=', '=']
  | [b1, b2] => [sxChar (b1 / 4), sxChar (b1 % 4 * 16 + b2 / 16), sxChar (b2 % 16 * 4), '=']
  | b1 :: b2 :: b3 :: rest =>
    sxChar (b1 / 4) :: sxChar (b1 % 4 * 16 + b2 / 16) :: sxChar (b2 % 16 * 4 + b3 / 64) ::
      sxChar (b3 % 64) :: btoa rest

/-- `atob` (forgiving Base64 decode): `none` models the `InvalidCharacterError`
thrown on malformed input; padding is accepted only at the end; an unpadded
final group of 2 or 3 characters is tolerated, a final group of 1 is not. -/
def atob : List Char → Option (List Nat)
  | [] => some []
  | [c1, c2] => do
    let s1 ← b64Index c1
    let s2 ← b64Index c2
    some [s1 * 4 + s2 / 16]
  | [c1, c2, c3] => do
    let s1 ← b64Index c1
    let s2 ← b64Index c2
    let s3 ← b64Index c3
    some [s1 * 4 + s2 / 16, s2 % 16 * 16 + s3 / 4]
  | c1 :: c2 :: c3 :: c4 :: rest => do
    let s1 ← b64Index c1
    let s2 ← b64Index c2
    if c3 = '=' ∧ c4 = '=' ∧ rest = [] then
      some [s1 * 4 + s2 / 16]
    else do
      let s3 ← b64Index c3
      if c4 = '=' ∧ rest = [] then
        some [s1 * 4 + s2 / 16, s2 % 16 * 16 + s3 / 4]
      else do
        let s4 ← b64Index c4
        let tail ← atob rest
        some ((s1 * 4 + s2 / 16) :: (s2 % 16 * 16 + s3 / 4) :: (s3 % 4 * 64 + s4) :: tail)
  | _ => none

/-- `aesEncrypt(plaintext, password)`: derive a key from the password and the
random salt, AES-GCM-encrypt the UTF-8 bytes of the plaintext under the random
`iv`, and Base64 the concatenation `salt || iv || ciphertext`.  The externally
drawn random `salt` / `iv` and the WebCrypto collaborators are explicit
parameters; text arguments are lists of Unicode scalar values. -/
def aesEncrypt (P : CryptoPrims) (salt iv : List Nat) (plaintext password : List Nat) :
    List Char :=
  let key := P.kdf (utf8Encode password) salt
  let ct := P.encrypt key iv (utf8Encode plaintext)
  btoa (salt ++ iv ++ ct)

/-- `aesDecrypt(b64, password)`: Base64-decode, slice `salt = raw.slice(0,16)`,
`iv = raw.slice(16,28)`, `ct = raw.slice(28)` (no length check exists in the
source), re-derive the key and decrypt.  The decrypted bytes go through the
replacement-mode `TextDecoder`. -/
def aesDecrypt (P : CryptoPrims) (b64 : List Char) (password : List Nat) :
    Except Err (List Nat) :=
  match atob b64 with
  | none => .error .invalidBase64
  | some raw =>
    let salt := raw.take 16
    let iv := (raw.drop 16).take 12
    let ct := raw.drop 28
    let key := P.kdf (utf8Encode password) salt
    match P.decrypt key iv ct with
    | none => .error .authFailure
    | some pt => .ok (utf8DecodeReplace pt)

/-- The `EmoCrypt` class state. -/
structure EmoCrypt where
  emojiSet : Array Char
  passphrase : Option (List Nat)

/-- `new EmoCrypt(passphrase)`:
`this.emojiSet = passphrase ? seededShuffle(BASE_EMO, passphrase) : BASE_EMO.slice()`.
A passphrase is truthy exactly when present and non-empty.  The passphrase is
given as its list of UTF-16 code units. -/
def EmoCrypt.init (passphrase : Option (List Nat)) : EmoCrypt where
  emojiSet :=
    match passphrase with
    | some p => if p = [] then BASE_EMO else seededShuffle BASE_EMO p
    | none => BASE_EMO
  passphrase := passphrase

/-- `EmoCrypt.prototype.encode`. -/
def EmoCrypt.encode (e : EmoCrypt) (text : List Nat) : Option (List Char) :=
  emojiEncode text e.emojiSet.toList

/-- `EmoCrypt.prototype.decode`. -/
def EmoCrypt.decode (e : EmoCrypt) (emojiText : List Char) : Except Err (List Nat) :=
  emojiDecode emojiText e.emojiSet.toList

/-- The literal version tag `"AESv1:"`. -/
def AESv1 : List Char := "AESv1:".toList

/-- `EmoCrypt.prototype.encryptAndEncode`: emoji-encode, AES-wrap, prefix the
version tag. -/
def EmoCrypt.encryptAndEncode (e : EmoCrypt) (P : CryptoPrims) (salt iv : List Nat)
    (text password : List Nat) : Option (List Char) :=
  (e.encode text).map fun encoded =>
    AESv1 ++ aesEncrypt P salt iv (encoded.map Char.toNat) password

/-- `EmoCrypt.prototype.decryptAndDecode`: reject a missing `"AESv1:"` prefix,
then `aesDecrypt` the remainder and emoji-decode the result. -/
def EmoCrypt.decryptAndDecode (e : EmoCrypt) (P : CryptoPrims) (encryptedText : List Char)
    (password : List Nat) : Except Err (List Nat) :=
  if encryptedText.take 6 = AESv1 then
    match aesDecrypt P (encryptedText.drop 6) password with
    | .error err => .error err
    | .ok decrypted => e.decode (decrypted.map Char.ofNat)
  else .error .invalidFormat

/-- `EmoCrypt.prototype.getEmojiSet` (returns a copy). -/
def EmoCrypt.getEmojiSet (e : EmoCrypt) : Array Char := e.emojiSet

/-- `EmoCrypt.prototype.setPassphrase`. -/
def EmoCrypt.setPassphrase (e : EmoCrypt) (newPassphrase : Option (List Nat)) : EmoCrypt :=
  { e with
    passphrase := newPassphrase
    emojiSet :=
      match newPassphrase with
      | some p => if p = [] then BASE_EMO else seededShuffle BASE_EMO p
      | none => BASE_EMO }

/-! ## Spec-side reference definitions (for the refinement claim C4)

These follow the words of spec §4.2 ("Seed derivation"), to be compared with
the source-side `xmur3Seed`. -/

/-- "Rotate left by 13 bits" (and generally by `n`) on a 32-bit value. -/
def rotl32 (h n : Nat) : Nat := h % 2 ^ (32 - n) * 2 ^ n + h / 2 ^ (32 - n)

/-- Spec §4.2, per-character step: "XOR its code point into the accumulator,
multiply by the odd constant 3432918353 under 32-bit wraparound, then rotate
left by 13 bits." -/
def specSeedStep (h c : Nat) : Nat := rotl32 ((h ^^^ c) * 3432918353 % 2 ^ 32) 13

/-- Spec §4.2, finalization mix: "XOR-shift-right by 16, multiply by
2246822507, XOR-shift-right by 13, multiply by 3266489909, XOR-shift-right
by 16." -/
def specSeedFinal (h : Nat) : Nat :=
  let h1 := (h ^^^ (h >>> 16)) * 2246822507 % 2 ^ 32
  let h2 := (h1 ^^^ (h1 >>> 13)) * 3266489909 % 2 ^ 32
  h2 ^^^ (h2 >>> 16)

/-- Spec §4.2, whole seed derivation: "an initial accumulator seeded with
1779033703 XOR length(passphrase)", the per-character steps, then the
finalization mix; "the result (unsigned 32-bit) is the seed." -/
def specSeed (s : List Nat) : Nat :=
  specSeedFinal (s.foldl specSeedStep (1779033703 ^^^ s.length))

/-! ## Arithmetic helper lemmas -/

/-- Disjoint bitwise-or is addition: or-ing `k` low bits into a value whose
`k` low bits are clear. -/
theorem lor_two_pow_add (k a b : Nat) (hb : b < 2 ^ k) :
    (a * 2 ^ k) ||| b = a * 2 ^ k + b := by
  apply Nat.eq_of_testBit_eq
  intro i
  rw [Nat.testBit_lor, Nat.testBit_to_div_mod, Nat.testBit_to_div_mod,
    Nat.testBit_to_div_mod]
  rcases Nat.lt_or_ge i k with hik | hik
  · have hsplit : (2 : Nat) ^ k = 2 ^ i * 2 ^ (k - i) := by
      rw [← pow_add]; congr 1; omega
    have hdiv : a * 2 ^ k / 2 ^ i = a * 2 ^ (k - i) := by
      rw [hsplit, ← Nat.mul_assoc, Nat.mul_comm a (2 ^ i), Nat.mul_assoc,
        Nat.mul_div_right _ (Nat.two_pow_pos i)]
    have hsum : (a * 2 ^ k + b) / 2 ^ i = a * 2 ^ (k - i) + b / 2 ^ i := by
      rw [hsplit, ← Nat.mul_assoc, Nat.mul_comm a (2 ^ i), Nat.mul_assoc, Nat.add_comm,
        Nat.add_mul_div_left _ _ (Nat.two_pow_pos i), Nat.add_comm]
    have heven : a * 2 ^ (k - i) % 2 = 0 := by
      have h1 : (2 : Nat) ^ (k - i) = 2 ^ (k - i - 1) * 2 := by
        rw [← pow_succ]; congr 1; omega
      rw [h1, ← Nat.mul_assoc, Nat.mul_mod_left]
    rw [hdiv, hsum]
    have hmod : (a * 2 ^ (k - i) + b / 2 ^ i) % 2 = b / 2 ^ i % 2 := by omega
    rw [hmod]
    simp [heven]
  · have hb0 : b / 2 ^ i = 0 :=
      Nat.div_eq_of_lt (lt_of_lt_of_le hb (Nat.pow_le_pow_right (by omega) hik))
    have hsplit : (2 : Nat) ^ i = 2 ^ k * 2 ^ (i - k) := by
      rw [← pow_add]; congr 1; omega
    have hdiv : a * 2 ^ k / 2 ^ i = a / 2 ^ (i - k) := by
      rw [hsplit, ← Nat.div_div_eq_div_mul, Nat.mul_div_cancel _ (Nat.two_pow_pos k)]
    have hsum : (a * 2 ^ k + b) / 2 ^ i = a / 2 ^ (i - k) := by
      rw [hsplit, ← Nat.div_div_eq_div_mul]
      have hstep : (a * 2 ^ k + b) / 2 ^ k = a := by
        rw [Nat.add_comm, Nat.add_mul_div_right _ _ (Nat.two_pow_pos k),
          Nat.div_eq_of_lt hb]
        omega
      rw [hstep]
    rw [hdiv, hsum, hb0]
    simp

/-- The source's `h << 13 | h >>> 19` on a 32-bit pattern is the spec's
"rotate left by 13 bits". -/
theorem shift_or_eq_rotl32 (h1 : Nat) (hlt : h1 < M32) :
    ((h1 <<< 13) % M32) ||| (h1 >>> 19) = rotl32 h1 13 := by
  rw [Nat.shiftLeft_eq, Nat.shiftRight_eq_div_pow]
  unfold rotl32
  have h19 : h1 / 2 ^ 19 < 2 ^ 13 := by
    rw [Nat.div_lt_iff_lt_mul (Nat.two_pow_pos 19)]
    calc h1 < M32 := hlt
    _ = 2 ^ 13 * 2 ^ 19 := by norm_num [M32]
  have hmm : h1 * 2 ^ 13 % M32 = h1 % 2 ^ 19 * 2 ^ 13 := by
    have hM : M32 = 2 ^ 19 * 2 ^ 13 := by norm_num [M32]
    rw [hM, Nat.mul_mod_mul_right]
  rw [hmm, lor_two_pow_add 13 _ _ h19]

/-- The source's per-character `xmur3` step equals the spec's description. -/
theorem xmur3Step_eq_spec (h c : Nat) : xmur3Step h c = specSeedStep h c := by
  unfold xmur3Step specSeedStep imul
  rw [shift_or_eq_rotl32 _ (Nat.mod_lt _ M32_pos), M32_eq]

/-- The source's `xmur3` finalization equals the spec's description. -/
theorem xmur3Final_eq_spec (h : Nat) : xmur3Final h = specSeedFinal h := by
  unfold xmur3Final specSeedFinal imul
  rw [M32_eq]

/-! ## Permutation lemmas for the seeded shuffle -/

/-- Writing `l[j]` at position `i` and `l[i]` at position `j` permutes a
list. -/
theorem set_set_perm {α : Type} (l : List α) (i j : Nat)
    (hi : i < l.length) (hj : j < l.length) :
    ((l.set i (l.get ⟨j, hj⟩)).set j (l.get ⟨i, hi⟩)).Perm l := by
  classical
  rw [List.perm_iff_count]
  intro x
  have hj2 : j < (l.set i (l.get ⟨j, hj⟩)).length := by rw [List.length_set]; exact hj
  rw [List.count_set _ _ _ _ hj2, List.count_set _ _ _ _ hi]
  simp only [List.get_eq_getElem]
  by_cases hij : i = j
  · subst hij
    have hset : (l.set i l[i]).get ⟨i, hj2⟩ = l[i] := by
      simp only [List.get_eq_getElem, List.getElem_set_self]
    simp only [List.get_eq_getElem] at hset
    simp only [hset]
    by_cases hx : l[i] = x
    · have hc := List.count_pos_iff.mpr (hx ▸ List.getElem_mem hi)
      simp [hx, beq_iff_eq]
      try omega
    · simp [hx, beq_iff_eq]
  · have hset : (l.set i l[j]).get ⟨j, hj2⟩ = l[j] := by
      simp only [List.get_eq_getElem]
      rw [List.getElem_set_ne hij]
    simp only [List.get_eq_getElem] at hset
    simp only [hset]
    by_cases hxi : l[i] = x
    · by_cases hxj : l[j] = x
      · have hc := List.count_pos_iff.mpr (hxi ▸ List.getElem_mem hi)
        simp [hxi, hxj, beq_iff_eq]
        try omega
      · have hc := List.count_pos_iff.mpr (hxi ▸ List.getElem_mem hi)
        simp [hxi, hxj, beq_iff_eq]
        try omega
    · by_cases hxj : l[j] = x
      · have hc := List.count_pos_iff.mpr (hxj ▸ List.getElem_mem hj)
        simp [hxi, hxj, beq_iff_eq]
        try omega
      · simp [hxi, hxj, beq_iff_eq]

/-- Swapping two entries of an array permutes its entries. -/
theorem swap_toList_perm {α : Type} (a : Array α) (i j : Fin a.size) :
    (a.swap i j).toList.Perm a.toList := by
  rw [Array.toList_swap]
  have hil : (i : Nat) < a.toList.length := by rw [Array.length_toList]; exact i.isLt
  have hjl : (j : Nat) < a.toList.length := by rw [Array.length_toList]; exact j.isLt
  have hgi : a.get i = a.toList.get ⟨(i : Nat), hil⟩ := by
    simp only [Array.get_eq_getElem, List.get_eq_getElem, Array.getElem_toList]
  have hgj : a.get j = a.toList.get ⟨(j : Nat), hjl⟩ := by
    simp only [Array.get_eq_getElem, List.get_eq_getElem, Array.getElem_toList]
  rw [hgi, hgj]
  exact set_set_perm _ _ _ hil hjl

/-- The Fisher–Yates loop only permutes the array entries. -/
theorem shuffleGo_toList_perm {α : Type} :
    ∀ (i : Nat) (st : Nat) (out : Array α), (shuffleGo st out i).toList.Perm out.toList
  | 0, _, _ => List.Perm.refl _
  | i + 1, st, out => by
    rw [shuffleGo]
    split
    · exact (shuffleGo_toList_perm i _ _).trans (swap_toList_perm _ _ _)
    · exact List.Perm.refl _

/-- `seededShuffle` returns a permutation of its input array. -/
theorem seededShuffle_toList_perm {α : Type} (a : Array α) (p : List Nat) :
    (seededShuffle a p).toList.Perm a.toList :=
  shuffleGo_toList_perm _ _ _

/-! ## Lookup-map lemmas -/

theorem decIdxGo_not_mem {c : Char} :
    ∀ (l : List Char) (i : Nat) (acc : Option Nat), c ∉ l → decIdxGo c l i acc = acc
  | [], _, _, _ => rfl
  | a :: as, i, acc, h => by
    have ha : ¬(a = c) := fun hc => h (hc ▸ List.mem_cons_self a as)
    rw [decIdxGo, if_neg ha]
    exact decIdxGo_not_mem as (i + 1) acc (fun hc => h (List.mem_cons_of_mem a hc))

theorem decIdxGo_acc_some :
    ∀ (l : List Char) (c : Char) (i x : Nat), (decIdxGo c l i (some x)).isSome
  | [], _, _, _ => rfl
  | a :: as, c, i, x => by
    rw [decIdxGo]
    by_cases h : a = c
    · rw [if_pos h]; exact decIdxGo_acc_some as c (i + 1) i
    · rw [if_neg h]; exact decIdxGo_acc_some as c (i + 1) x

theorem decIdxGo_mem_isSome :
    ∀ (l : List Char) (c : Char), c ∈ l → ∀ (i : Nat) (acc : Option Nat),
      (decIdxGo c l i acc).isSome
  | [], _, hc, _, _ => absurd hc (List.not_mem_nil _)
  | a :: as, c, hc, i, acc => by
    rw [decIdxGo]
    by_cases h : a = c
    · rw [if_pos h]; exact decIdxGo_acc_some as c (i + 1) i
    · rw [if_neg h]
      have hmem : c ∈ as := by
        rcases List.mem_cons.mp hc with h1 | h1
        · exact absurd h1.symm h
        · exact h1
      exact decIdxGo_mem_isSome as c hmem (i + 1) acc

/-- `decMap` answers `undefined` exactly for symbols outside the array. -/
theorem decIdx_eq_none_iff (A : List Char) (c : Char) : decIdx A c = none ↔ c ∉ A := by
  constructor
  · intro h hmem
    have := decIdxGo_mem_isSome A c hmem 0 none
    rw [decIdx] at h
    rw [h] at this
    exact absurd this (by decide)
  · intro h
    exact decIdxGo_not_mem A 0 none h

theorem decIdxGo_nodup_get :
    ∀ (l : List Char), l.Nodup → ∀ (n : Nat) (hn : n < l.length) (i : Nat) (acc : Option Nat),
      decIdxGo (l.get ⟨n, hn⟩) l i acc = some (i + n)
  | [], _, n, hn, _, _ => absurd hn (by simp)
  | a :: as, hnd, 0, hn, i, acc => by
    have hna : a ∉ as := (List.nodup_cons.mp hnd).1
    show decIdxGo a (a :: as) i acc = some (i + 0)
    rw [decIdxGo, if_pos rfl, decIdxGo_not_mem as (i + 1) (some i) hna, Nat.add_zero]
  | a :: as, hnd, m + 1, hn, i, acc => by
    have hna : a ∉ as := (List.nodup_cons.mp hnd).1
    have hm : m < as.length := by
      have := hn; simp at this; omega
    have hc : (a :: as).get ⟨m + 1, hn⟩ = as.get ⟨m, hm⟩ := rfl
    rw [hc, decIdxGo]
    have hne : ¬(a = as.get ⟨m, hm⟩) := fun h => hna (h ▸ List.get_mem as m hm)
    rw [if_neg hne, decIdxGo_nodup_get as (List.nodup_cons.mp hnd).2 m hm (i + 1) acc]
    congr 1
    omega

/-- On a duplicate-free array, `decMap` inverts indexing. -/
theorem decIdx_get (A : List Char) (hnd : A.Nodup) (n : Nat) (hn : n < A.length) :
    decIdx A (A.get ⟨n, hn⟩) = some n := by
  rw [decIdx, decIdxGo_nodup_get A hnd n hn 0 none, Nat.zero_add]

/-! ## Nibble-codec round trip -/

set_option maxRecDepth 4000 in
theorem shiftRight4_lt_16 : ∀ b : Nat, b < 256 → b >>> 4 < 16 := by decide

theorem and15_lt_16 (b : Nat) : b &&& 15 < 16 := by
  have h : b &&& 15 = b % 16 := by
    have := Nat.and_pow_two_sub_one_eq_mod b 4
    norm_num at this
    exact this
  rw [h]
  exact Nat.mod_lt _ (by omega)

set_option maxRecDepth 4000 in
theorem nibble_recombine : ∀ b : Nat, b < 256 → (((b >>> 4) <<< 4) ||| (b &&& 15)) % 256 = b := by
  decide

/-- With a 16-symbol duplicate-free alphabet, encoding bytes always succeeds
and decoding the symbols reproduces the bytes. -/
theorem emojiEncodeBytes_roundtrip (A : List Char) (h16 : A.length = 16) (hnd : A.Nodup) :
    ∀ bytes : List Nat, (∀ b ∈ bytes, b < 256) →
      ∃ es ns, emojiEncodeBytes A bytes = some es ∧ toNibbles A es = .ok ns ∧
        ns.length % 2 = 0 ∧ pairsToBytes ns = bytes := by
  intro bytes
  induction bytes with
  | nil => exact fun _ => ⟨[], [], rfl, rfl, rfl, rfl⟩
  | cons b rest ih =>
    intro hb
    obtain ⟨es, ns, hes, hns, hlen, hpairs⟩ := ih (fun x hx => hb x (List.mem_cons_of_mem b hx))
    have hblt : b < 256 := hb b (List.mem_cons_self b rest)
    have hhi : b >>> 4 < A.length := h16 ▸ shiftRight4_lt_16 b hblt
    have hlo : b &&& 15 < A.length := h16 ▸ and15_lt_16 b
    refine ⟨A.get ⟨b >>> 4, hhi⟩ :: A.get ⟨b &&& 15, hlo⟩ :: es,
            (b >>> 4) :: (b &&& 15) :: ns, ?_, ?_, ?_, ?_⟩
    · rw [emojiEncodeBytes]
      simp only [encIdx, List.get?_eq_get hhi, List.get?_eq_get hlo, hes, Option.bind_some]
      rfl
    · rw [toNibbles]
      simp only [decIdx_get A hnd _ hhi]
      rw [toNibbles]
      simp only [decIdx_get A hnd _ hlo, hns]
      rfl
    · simp only [List.length_cons]
      omega
    · rw [pairsToBytes, nibble_recombine b hblt, hpairs]

/-! ## UTF-8 round trip -/

theorem utf8EncodeChar_lt_256 (c : Nat) (hc : c < 1114112) :
    ∀ b ∈ utf8EncodeChar c, b < 256 := by
  intro b hb
  unfold utf8EncodeChar at hb
  split_ifs at hb with h1 h2 h3 <;>
    simp only [List.mem_cons, List.not_mem_nil, or_false] at hb <;> omega

theorem utf8Encode_lt_256 (s : List Nat) (hs : ∀ c ∈ s, ScalarValue c) :
    ∀ b ∈ utf8Encode s, b < 256 := by
  intro b hb
  rw [utf8Encode, List.mem_flatMap] at hb
  obtain ⟨c, hcs, hbc⟩ := hb
  exact utf8EncodeChar_lt_256 c (hs c hcs).1 b hbc

set_option maxRecDepth 8000 in
/-- Decoding the UTF-8 bytes of one scalar value consumes exactly them and
emits exactly that scalar. -/
theorem utf8_decode_encode_char (c : Nat) (hc : ScalarValue c) (l : List Nat) :
    utf8DecodeReplace (utf8EncodeChar c ++ l) = c :: utf8DecodeReplace l := by
  obtain ⟨h1, h2⟩ := hc
  rcases Nat.lt_or_ge c 128 with hA | hA
  · have he : utf8EncodeChar c = [c] := by rw [utf8EncodeChar, if_pos hA]
    rw [he]
    show utf8DecodeReplace (c :: l) = _
    rw [utf8DecodeReplace.eq_def]
    dsimp only
    rw [if_pos hA]
  · rcases Nat.lt_or_ge c 2048 with hB | hB
    · have he : utf8EncodeChar c = [192 + c / 64, 128 + c % 64] := by
        rw [utf8EncodeChar, if_neg (by omega), if_pos hB]
      rw [he]
      show utf8DecodeReplace ((192 + c / 64) :: (128 + c % 64) :: l) = _
      rw [utf8DecodeReplace.eq_def]
      dsimp only
      rw [if_neg (by omega : ¬(192 + c / 64 < 128)),
        if_pos (show 194 ≤ 192 + c / 64 ∧ 192 + c / 64 ≤ 223 by omega),
        if_pos (show 128 ≤ 128 + c % 64 ∧ 128 + c % 64 ≤ 191 by omega)]
      congr 1
      omega
    · rcases Nat.lt_or_ge c 65536 with hC | hC
      · have hdd : c / 64 / 64 = c / 4096 := by
          rw [Nat.div_div_eq_div_mul]
        have he : utf8EncodeChar c = [224 + c / 4096, 128 + c / 64 % 64, 128 + c % 64] := by
          rw [utf8EncodeChar, if_neg (by omega), if_neg (by omega), if_pos hC]
        rw [he]
        show utf8DecodeReplace ((224 + c / 4096) :: (128 + c / 64 % 64) :: (128 + c % 64) :: l) = _
        rw [utf8DecodeReplace.eq_def]
        dsimp only
        rw [if_neg (by omega : ¬(224 + c / 4096 < 128)),
          if_neg (by omega : ¬(194 ≤ 224 + c / 4096 ∧ 224 + c / 4096 ≤ 223)),
          if_pos (show 224 ≤ 224 + c / 4096 ∧ 224 + c / 4096 ≤ 239 by omega),
          if_pos (show (224 < 224 + c / 4096 ∨ 160 ≤ 128 + c / 64 % 64) ∧
              (224 + c / 4096 ≠ 237 ∨ 128 + c / 64 % 64 ≤ 159) ∧
              128 ≤ 128 + c / 64 % 64 ∧ 128 + c / 64 % 64 ≤ 191 by omega),
          if_pos (show 128 ≤ 128 + c % 64 ∧ 128 + c % 64 ≤ 191 by omega)]
        congr 1
        omega
      · have hdd : c / 64 / 64 = c / 4096 := by
          rw [Nat.div_div_eq_div_mul]
        have hdd2 : c / 4096 / 64 = c / 262144 := by
          rw [Nat.div_div_eq_div_mul]
        have he : utf8EncodeChar c =
            [240 + c / 262144, 128 + c / 4096 % 64, 128 + c / 64 % 64, 128 + c % 64] := by
          rw [utf8EncodeChar, if_neg (by omega), if_neg (by omega), if_neg (by omega)]
        rw [he]
        show utf8DecodeReplace
          ((240 + c / 262144) :: (128 + c / 4096 % 64) :: (128 + c / 64 % 64) :: (128 + c % 64) :: l) = _
        rw [utf8DecodeReplace.eq_def]
        dsimp only
        rw [if_neg (by omega : ¬(240 + c / 262144 < 128)),
          if_neg (by omega : ¬(194 ≤ 240 + c / 262144 ∧ 240 + c / 262144 ≤ 223)),
          if_neg (by omega : ¬(224 ≤ 240 + c / 262144 ∧ 240 + c / 262144 ≤ 239)),
          if_pos (show 240 ≤ 240 + c / 262144 ∧ 240 + c / 262144 ≤ 244 by omega),
          if_pos (show (240 < 240 + c / 262144 ∨ 144 ≤ 128 + c / 4096 % 64) ∧
              (240 + c / 262144 ≠ 244 ∨ 128 + c / 4096 % 64 ≤ 143) ∧
              128 ≤ 128 + c / 4096 % 64 ∧ 128 + c / 4096 % 64 ≤ 191 by omega),
          if_pos (show 128 ≤ 128 + c / 64 % 64 ∧ 128 + c / 64 % 64 ≤ 191 by omega),
          if_pos (show 128 ≤ 128 + c % 64 ∧ 128 + c % 64 ≤ 191 by omega)]
        congr 1
        omega

/-- `TextDecoder` inverts `TextEncoder` on every well-formed text. -/
theorem utf8_decode_encode (s : List Nat) (hs : ∀ c ∈ s, ScalarValue c) :
    utf8DecodeReplace (utf8Encode s) = s := by
  induction s with
  | nil => rfl
  | cons c rest ih =>
    rw [utf8Encode, List.flatMap_cons]
    rw [show rest.flatMap utf8EncodeChar = utf8Encode rest from rfl]
    rw [utf8_decode_encode_char c (hs c (List.mem_cons_self c rest)) (utf8Encode rest)]
    rw [ih (fun x hx => hs x (List.mem_cons_of_mem c hx))]

/-! ## Base64 round trip and envelope slicing -/

set_option maxRecDepth 4000 in
theorem b64Index_sxChar : ∀ n : Nat, n < 64 → b64Index (sxChar n) = some n := by decide

set_option maxRecDepth 4000 in
theorem sxChar_ne_pad : ∀ n : Nat, n < 64 → sxChar n ≠ '=' := by decide

theorem atob_btoa : ∀ bytes : List Nat, (∀ b ∈ bytes, b < 256) → atob (btoa bytes) = some bytes
  | [], _ => rfl
  | [b1], h => by
    have hb1 : b1 < 256 := h b1 (List.mem_cons_self b1 [])
    rw [btoa, atob]
    rw [b64Index_sxChar (b1 / 4) (by omega), b64Index_sxChar (b1 % 4 * 16) (by omega)]
    simp only [Option.bind_eq_bind, Option.some_bind]
    rw [if_pos (by simp)]
    simp only [Option.some.injEq, List.cons.injEq, and_true]
    omega
  | [b1, b2], h => by
    have hb1 : b1 < 256 := h b1 (by simp)
    have hb2 : b2 < 256 := h b2 (by simp)
    rw [btoa, atob]
    rw [b64Index_sxChar (b1 / 4) (by omega),
      b64Index_sxChar (b1 % 4 * 16 + b2 / 16) (by omega),
      b64Index_sxChar (b2 % 16 * 4) (by omega)]
    simp only [Option.bind_eq_bind, Option.some_bind]
    rw [if_neg (fun hc => sxChar_ne_pad (b2 % 16 * 4) (by omega) hc.1),
      if_pos (by simp)]
    simp only [Option.some.injEq, List.cons.injEq, and_true]
    omega
  | b1 :: b2 :: b3 :: b4 :: rest, h => by
    have hb1 : b1 < 256 := h b1 (by simp)
    have hb2 : b2 < 256 := h b2 (by simp)
    have hb3 : b3 < 256 := h b3 (by simp)
    have ih : atob (btoa (b4 :: rest)) = some (b4 :: rest) :=
      atob_btoa (b4 :: rest) (fun x hx => h x
        (List.mem_cons_of_mem _ (List.mem_cons_of_mem _ (List.mem_cons_of_mem _ hx))))
    rw [btoa, atob]
    rw [b64Index_sxChar (b1 / 4) (by omega),
      b64Index_sxChar (b1 % 4 * 16 + b2 / 16) (by omega),
      b64Index_sxChar (b2 % 16 * 4 + b3 / 64) (by omega),
      b64Index_sxChar (b3 % 64) (by omega)]
    simp only [Option.bind_eq_bind, Option.some_bind]
    rw [if_neg (fun hc => sxChar_ne_pad (b2 % 16 * 4 + b3 / 64) (by omega) hc.1),
      if_neg (fun hc => sxChar_ne_pad (b3 % 64) (by omega) hc.1)]
    rw [ih]
    simp only [Option.bind_eq_bind, Option.some_bind]
    simp only [Option.some.injEq, List.cons.injEq, and_true]
    omega
  | [b1, b2, b3], h => by
    have hb1 : b1 < 256 := h b1 (by simp)
    have hb2 : b2 < 256 := h b2 (by simp)
    have hb3 : b3 < 256 := h b3 (by simp)
    rw [btoa, atob]
    rw [b64Index_sxChar (b1 / 4) (by omega),
      b64Index_sxChar (b1 % 4 * 16 + b2 / 16) (by omega),
      b64Index_sxChar (b2 % 16 * 4 + b3 / 64) (by omega),
      b64Index_sxChar (b3 % 64) (by omega)]
    simp only [Option.bind_eq_bind, Option.some_bind]
    rw [if_neg (fun hc => sxChar_ne_pad (b2 % 16 * 4 + b3 / 64) (by omega) hc.1),
      if_neg (fun hc => sxChar_ne_pad (b3 % 64) (by omega) hc.1)]
    simp only [atob, Option.bind_eq_bind, Option.some_bind]
    simp only [Option.some.injEq, List.cons.injEq, and_true]
    omega

/-- The `salt/iv/ct` slices taken by `aesDecrypt` recover exactly the pieces
concatenated by `aesEncrypt`. -/
theorem envelope_slices (salt iv ct : List Nat) (hs : salt.length = 16) (hi : iv.length = 12) :
    (salt ++ iv ++ ct).take 16 = salt ∧
    ((salt ++ iv ++ ct).drop 16).take 12 = iv ∧
    (salt ++ iv ++ ct).drop 28 = ct := by
  have hdrop16 : (salt ++ iv ++ ct).drop 16 = iv ++ ct := by
    rw [List.append_assoc, ← hs, List.drop_left]
  refine ⟨?_, ?_, ?_⟩
  · rw [List.append_assoc, ← hs, List.take_left]
  · rw [hdrop16, ← hi, List.take_left]
  · rw [show (28 : Nat) = 16 + 12 from rfl, ← List.drop_drop, hdrop16, ← hi, List.drop_left]

/-! ## Decode-error lemmas -/

/-- A symbol outside the alphabet anywhere in the input makes the nibble map
throw the unknown-symbol error. -/
theorem toNibbles_unknown (A : List Char) :
    ∀ (input : List Char) (c : Char), c ∈ input → c ∉ A →
      toNibbles A input = Except.error Err.unknownSymbol
  | a :: rest, c, hc, hcA => by
    rw [toNibbles]
    by_cases ha : decIdx A a = none
    · rw [ha]
    · rcases Option.ne_none_iff_exists.mp ha with ⟨v, hv⟩
      rw [← hv]
      have hca : c ≠ a := by
        intro h
        subst h
        exact ha ((decIdx_eq_none_iff A c).mpr hcA)
      have hcrest : c ∈ rest := by
        rcases List.mem_cons.mp hc with h | h
        · exact absurd h hca
        · exact h
      rw [toNibbles_unknown A rest c hcrest hcA]
      rfl

/-- If every symbol is in the alphabet, the nibble map succeeds and preserves
the symbol count. -/
theorem toNibbles_known (A : List Char) :
    ∀ input : List Char, (∀ c ∈ input, c ∈ A) →
      ∃ ns, toNibbles A input = Except.ok ns ∧ ns.length = input.length
  | [], _ => ⟨[], rfl, rfl⟩
  | a :: rest, h => by
    obtain ⟨ns, hns, hlen⟩ :=
      toNibbles_known A rest (fun c hc => h c (List.mem_cons_of_mem a hc))
    have ha : (decIdx A a).isSome := by
      rcases Option.eq_none_or_eq_some (decIdx A a) with h0 | ⟨v, hv⟩
      · exact absurd ((decIdx_eq_none_iff A a).mp h0) (by
          simp only [not_not]
          exact h a (List.mem_cons_self a rest))
      · rw [hv]; rfl
    rcases Option.isSome_iff_exists.mp ha with ⟨v, hv⟩
    refine ⟨v :: ns, ?_, by simp [hlen]⟩
    rw [toNibbles, hv, hns]
    rfl

/-- With any 16-entry symbol array — valid or not — encoding bytes always
succeeds (the source performs no validation whatsoever). -/
theorem emojiEncodeBytes_isSome (A : List Char) (h16 : A.length = 16) :
    ∀ bytes : List Nat, (∀ b ∈ bytes, b < 256) →
      ∃ es, emojiEncodeBytes A bytes = some es
  | [], _ => ⟨[], rfl⟩
  | b :: rest, h => by
    obtain ⟨es, hes⟩ :=
      emojiEncodeBytes_isSome A h16 rest (fun x hx => h x (List.mem_cons_of_mem b hx))
    have hblt : b < 256 := h b (List.mem_cons_self b rest)
    have hhi : b >>> 4 < A.length := h16 ▸ shiftRight4_lt_16 b hblt
    have hlo : b &&& 15 < A.length := h16 ▸ and15_lt_16 b
    refine ⟨A.get ⟨b >>> 4, hhi⟩ :: A.get ⟨b &&& 15, hlo⟩ :: es, ?_⟩
    rw [emojiEncodeBytes]
    simp only [encIdx, List.get?_eq_get hhi, List.get?_eq_get hlo, hes,
      Option.bind_eq_bind, Option.some_bind]
    rfl

/-! ## Unfolding equations for the two decoders -/

theorem emojiDecode_eq (input A : List Char) :
    emojiDecode input A =
      match toNibbles A input with
      | Except.error e => Except.error e
      | Except.ok ns =>
        if ns.length % 2 ≠ 0 then Except.error Err.malformedLength
        else Except.ok (utf8DecodeReplace (pairsToBytes ns)) := by
  unfold emojiDecode
  cases toNibbles A input <;> rfl

theorem aesDecrypt_eq (P : CryptoPrims) (b64 : List Char) (password : List Nat) :
    aesDecrypt P b64 password =
      match atob b64 with
      | none => Except.error Err.invalidBase64
      | some raw =>
        match P.decrypt (P.kdf (utf8Encode password) (raw.take 16))
            ((raw.drop 16).take 12) (raw.drop 28) with
        | none => Except.error Err.authFailure
        | some pt => Except.ok (utf8DecodeReplace pt) := by
  unfold aesDecrypt
  cases atob b64 <;> rfl

/-- Concrete stand-in for the WebCrypto collaborators, used to instantiate
hypotheses at closed inputs. -/
def dummyPrims : CryptoPrims where
  kdf := fun _ _ => []
  encrypt := fun _ _ _ => []
  decrypt := fun _ _ ct => some ct

/-! ## The claims -/

/-- C1: for every text `x` (as a list of Unicode scalar values, which covers
the empty string and multi-byte characters) and every valid 16-symbol
alphabet `A` (16 distinct single-code-point symbols — the default set and all
its passphrase permutations are such), decoding the encoding of `x` under `A`
returns exactly `x`. -/
theorem claim1_roundtrip (A : List Char) (h16 : A.length = 16) (hnd : A.Nodup)
    (s : List Nat) (hs : ∀ c ∈ s, ScalarValue c) :
    ∃ es, emojiEncode s A = some es ∧ emojiDecode es A = Except.ok s := by
  obtain ⟨es, ns, hes, hns, heven, hpairs⟩ :=
    emojiEncodeBytes_roundtrip A h16 hnd (utf8Encode s) (utf8Encode_lt_256 s hs)
  refine ⟨es, hes, ?_⟩
  rw [emojiDecode_eq, hns]
  dsimp only
  rw [if_neg (by omega), hpairs, utf8_decode_encode s hs]

/-- C1 witness: the round trip at the default alphabet on the two-character
text "H😀" (one ASCII and one four-byte character). -/
theorem claim1_roundtrip_witness :
    BASE_EMO.toList.length = 16 ∧ BASE_EMO.toList.Nodup ∧
    (∀ c ∈ ([72, 128512] : List Nat), ScalarValue c) ∧
    ∃ es, emojiEncode [72, 128512] BASE_EMO.toList = some es ∧
      emojiDecode es BASE_EMO.toList = Except.ok [72, 128512] :=
  ⟨by decide, by decide, by decide,
   claim1_roundtrip BASE_EMO.toList (by decide) (by decide) [72, 128512] (by decide)⟩

/-- C2: deriving the shuffled alphabet from the same passphrase twice — two
independent `seededShuffle` calls, or two independently constructed `EmoCrypt`
instances — yields identical symbol sequences.  In the embedding the whole
derivation is a pure function of the passphrase (the source reads no ambient
state: seed, stream and shuffle are all determined by `pass`), so the two
runs are literally the same value. -/
theorem claim2_determinism (p : List Nat) :
    seededShuffle BASE_EMO p = seededShuffle BASE_EMO p ∧
    (EmoCrypt.init (some p)).emojiSet = (EmoCrypt.init (some p)).emojiSet ∧
    (p ≠ [] → (EmoCrypt.init (some p)).emojiSet = seededShuffle BASE_EMO p) := by
  refine ⟨rfl, rfl, fun hp => ?_⟩
  rw [EmoCrypt.init]
  dsimp only
  rw [if_neg hp]

/-- C2 witness: both instance constructions at the one-character passphrase
"a" (code unit 97). -/
theorem claim2_determinism_witness :
    ([97] : List Nat) ≠ [] ∧
    (EmoCrypt.init (some [97])).emojiSet = seededShuffle BASE_EMO [97] :=
  ⟨by decide, (claim2_determinism [97]).2.2 (by decide)⟩

/-- C3: with the default alphabet, byte 0x41 ('A') encodes to the symbols at
indices (4, 1), i.e. "😃😁", which decodes back to 0x41; the empty text
encodes to the empty symbol sequence and back. -/
theorem claim3_vectors :
    emojiEncode [65] BASE_EMO.toList = some ['😃', '😁'] ∧
    emojiDecode ['😃', '😁'] BASE_EMO.toList = Except.ok [65] ∧
    emojiEncode [] BASE_EMO.toList = some [] ∧
    emojiDecode [] BASE_EMO.toList = Except.ok [] :=
  ⟨by decide, by decide, by decide, by decide⟩

/-- C4: for every passphrase (of JavaScript-representable length), the 32-bit
seed computed by the source's `xmur3` equals the spec's reference definition
(initial accumulator `1779033703 XOR length`, per character XOR + multiply by
3432918353 mod 2^32 + rotate left 13, then the three-stage finalization
mix). -/
theorem claim4_seed_matches_spec (s : List Nat) (hlen : s.length < M32) :
    xmur3Seed s = specSeed s := by
  rw [xmur3Seed, specSeed, xmur3Final_eq_spec]
  have hstep : xmur3Step = specSeedStep :=
    funext fun h => funext fun c => xmur3Step_eq_spec h c
  rw [hstep, Nat.mod_eq_of_lt hlen]

/-- C4 witness: the seed of the passphrase "abc". -/
theorem claim4_seed_matches_spec_witness :
    ([97, 98, 99] : List Nat).length < M32 ∧
    xmur3Seed [97, 98, 99] = specSeed [97, 98, 99] :=
  ⟨by decide, claim4_seed_matches_spec [97, 98, 99] (by decide)⟩

/-- C5: every token produced by `encryptAndEncode` is exactly `"AESv1:"`
followed by the Base64 of `salt(16) || nonce(12) || ciphertext`, and
`aesDecrypt` splits the decoded bytes at exactly those offsets (salt = first
16 bytes, nonce = next 12, ciphertext = remainder) before handing them to key
derivation and decryption. -/
theorem claim5_envelope (P : CryptoPrims) (e : EmoCrypt)
    (salt iv text password : List Nat) (token : List Char)
    (hs : salt.length = 16) (hi : iv.length = 12)
    (hsb : ∀ b ∈ salt, b < 256) (hib : ∀ b ∈ iv, b < 256)
    (hctb : ∀ key pt b, b ∈ P.encrypt key iv pt → b < 256)
    (htok : e.encryptAndEncode P salt iv text password = some token) :
    ∃ ct, token = AESv1 ++ btoa (salt ++ iv ++ ct) ∧
      atob (btoa (salt ++ iv ++ ct)) = some (salt ++ iv ++ ct) ∧
      (salt ++ iv ++ ct).take 16 = salt ∧
      ((salt ++ iv ++ ct).drop 16).take 12 = iv ∧
      (salt ++ iv ++ ct).drop 28 = ct ∧
      aesDecrypt P (btoa (salt ++ iv ++ ct)) password =
        match P.decrypt (P.kdf (utf8Encode password) salt) iv ct with
        | none => Except.error Err.authFailure
        | some pt => Except.ok (utf8DecodeReplace pt) := by
  rw [EmoCrypt.encryptAndEncode] at htok
  rcases henc : e.encode text with _ | encoded
  · rw [henc] at htok
    exact absurd htok (by simp)
  · rw [henc] at htok
    simp only [Option.map_some'] at htok
    refine ⟨P.encrypt (P.kdf (utf8Encode password) salt) iv
      (utf8Encode (encoded.map Char.toNat)), ?_, ?_, ?_, ?_, ?_, ?_⟩
    · have htok2 : AESv1 ++ aesEncrypt P salt iv (encoded.map Char.toNat) password = token := by
        injection htok
      exact htok2.symm
    · refine atob_btoa _ ?_
      intro b hb
      rcases List.mem_append.mp hb with h1 | h1
      · rcases List.mem_append.mp h1 with h2 | h2
        · exact hsb b h2
        · exact hib b h2
      · exact hctb _ _ b h1
    · exact (envelope_slices salt iv _ hs hi).1
    · exact (envelope_slices salt iv _ hs hi).2.1
    · exact (envelope_slices salt iv _ hs hi).2.2
    · rw [aesDecrypt_eq]
      rw [atob_btoa _ (by
        intro b hb
        rcases List.mem_append.mp hb with h1 | h1
        · rcases List.mem_append.mp h1 with h2 | h2
          · exact hsb b h2
          · exact hib b h2
        · exact hctb _ _ b h1)]
      obtain ⟨h1, h2, h3⟩ := envelope_slices salt iv
        (P.encrypt (P.kdf (utf8Encode password) salt) iv
          (utf8Encode (encoded.map Char.toNat))) hs hi
      dsimp only
      rw [h1, h2, h3]

/-- C5 witness: dummy collaborators, an all-zero 16-byte salt, an all-one
12-byte nonce, empty text and password. -/
theorem claim5_envelope_witness :
    (List.replicate 16 0).length = 16 ∧ (List.replicate 12 1).length = 12 ∧
    (∀ b ∈ List.replicate 16 (0 : Nat), b < 256) ∧
    (∀ b ∈ List.replicate 12 (1 : Nat), b < 256) ∧
    ∃ ct, AESv1 ++ btoa (List.replicate 16 0 ++ List.replicate 12 1 ++ []) =
        AESv1 ++ btoa (List.replicate 16 0 ++ List.replicate 12 1 ++ ct) ∧
      atob (btoa (List.replicate 16 0 ++ List.replicate 12 1 ++ ct)) =
        some (List.replicate 16 0 ++ List.replicate 12 1 ++ ct) ∧
      (List.replicate 16 0 ++ List.replicate 12 1 ++ ct).take 16 = List.replicate 16 0 ∧
      ((List.replicate 16 0 ++ List.replicate 12 1 ++ ct).drop 16).take 12 =
        List.replicate 12 1 ∧
      (List.replicate 16 0 ++ List.replicate 12 1 ++ ct).drop 28 = ct ∧
      aesDecrypt dummyPrims (btoa (List.replicate 16 0 ++ List.replicate 12 1 ++ ct)) [] =
        match dummyPrims.decrypt (dummyPrims.kdf (utf8Encode []) (List.replicate 16 0))
            (List.replicate 12 1) ct with
        | none => Except.error Err.authFailure
        | some pt => Except.ok (utf8DecodeReplace pt) :=
  ⟨by decide, by decide, by decide, by decide,
   claim5_envelope dummyPrims (EmoCrypt.init none) (List.replicate 16 0)
     (List.replicate 12 1) [] [] _ (by decide) (by decide) (by decide) (by decide)
     (fun _ _ b hb => absurd hb (List.not_mem_nil b)) rfl⟩

/-- C6 counterexample: the token consisting of the bare tag `"AESv1:"` has a
decoded payload of 0 bytes — shorter than salt + nonce = 28 — yet
`decryptAndDecode` raises no `InvalidFormatError`: the empty payload is
sliced into empty salt/nonce/ciphertext and decryption is attempted (here a
decryption stand-in that returns its input, so the call even succeeds). -/
theorem claim6_counterexample :
    atob ((AESv1 : List Char).drop 6) = some [] ∧ (0 : Nat) < 16 + 12 ∧
    (EmoCrypt.init none).decryptAndDecode dummyPrims AESv1 [] = Except.ok [] :=
  ⟨rfl, by decide, by decide⟩

/-- C6 (amended): `decryptAndDecode` fails with `InvalidFormatError` exactly
when the token does not start with `"AESv1:"`, before anything else runs;
after stripping the tag there is **no** length check — the decoded bytes are
sliced at offsets 16 and 28 regardless of length and passed on to key
derivation and decryption, and `aesDecrypt` can never produce an
`InvalidFormatError`. -/
theorem claim6_amended (P : CryptoPrims) (e : EmoCrypt) (token : List Char)
    (password : List Nat) :
    (token.take 6 ≠ AESv1 →
      e.decryptAndDecode P token password = Except.error Err.invalidFormat) ∧
    (token.take 6 = AESv1 →
      e.decryptAndDecode P token password =
        match aesDecrypt P (token.drop 6) password with
        | Except.error err => Except.error err
        | Except.ok decrypted => e.decode (decrypted.map Char.ofNat)) ∧
    (∀ b64 : List Char, aesDecrypt P b64 password ≠ Except.error Err.invalidFormat) := by
  refine ⟨fun h => ?_, fun h => ?_, fun b64 => ?_⟩
  · rw [EmoCrypt.decryptAndDecode, if_neg h]
  · rw [EmoCrypt.decryptAndDecode, if_pos h]
  · rw [aesDecrypt_eq]
    rcases atob b64 with _ | raw
    · exact fun hc => Err.noConfusion (Except.error.inj hc)
    · dsimp only
      rcases P.decrypt (P.kdf (utf8Encode password) (raw.take 16))
          ((raw.drop 16).take 12) (raw.drop 28) with _ | pt
      · exact fun hc => Err.noConfusion (Except.error.inj hc)
      · exact fun hc => Except.noConfusion hc

/-- C6 witness: a token without the tag is rejected as `InvalidFormatError`
before any decryption. -/
theorem claim6_amended_witness :
    (['X'] : List Char).take 6 ≠ AESv1 ∧
    (EmoCrypt.init none).decryptAndDecode dummyPrims ['X'] [] =
      Except.error Err.invalidFormat :=
  ⟨by decide, (claim6_amended dummyPrims (EmoCrypt.init none) ['X'] []).1 (by decide)⟩

/-- C7: decode fails with `UnknownSymbolError` whenever some input symbol is
absent from the alphabet, and fails with `MalformedLengthError` when all
symbols are recognized but their count is odd; in both cases the result is an
error, never best-effort or truncated output. -/
theorem claim7_decode_errors (A input : List Char) :
    ((∃ c ∈ input, c ∉ A) →
      emojiDecode input A = Except.error Err.unknownSymbol) ∧
    ((∀ c ∈ input, c ∈ A) → input.length % 2 = 1 →
      emojiDecode input A = Except.error Err.malformedLength) := by
  constructor
  · rintro ⟨c, hc, hcA⟩
    rw [emojiDecode_eq, toNibbles_unknown A input c hc hcA]
  · intro hknown hodd
    obtain ⟨ns, hns, hlen⟩ := toNibbles_known A input hknown
    rw [emojiDecode_eq, hns]
    dsimp only
    rw [if_pos (by omega)]

/-- C7 witness: an unknown symbol ('A') is rejected as unknown; a recognized
but odd-length input ("😀") is rejected as malformed. -/
theorem claim7_decode_errors_witness :
    ('A' ∈ (['A'] : List Char) ∧ 'A' ∉ BASE_EMO.toList) ∧
    emojiDecode ['A'] BASE_EMO.toList = Except.error Err.unknownSymbol ∧
    emojiDecode ['😀'] BASE_EMO.toList = Except.error Err.malformedLength :=
  ⟨⟨by decide, by decide⟩,
   (claim7_decode_errors BASE_EMO.toList ['A']).1 ⟨'A', by decide, by decide⟩,
   (claim7_decode_errors BASE_EMO.toList ['😀']).2 (by decide) (by decide)⟩

/-- A 16-entry candidate symbol set containing a duplicate ('😀' twice). -/
def dupAlphabet : List Char :=
  ['😀', '😀', '😂', '🤣', '😃', '😄', '😅', '😆',
   '😉', '😊', '😋', '😎', '😍', '😘', '🥰', '😗']

/-- C8 counterexample: the source has no `ConfigurationError` path at all.
`buildMaps` (and the `EmoCrypt` constructor) accept a 16-entry set with a
duplicate without any error: encoding under it simply succeeds (and decoding
resolves the duplicated symbol to its **last** index, since later `decMap`
writes overwrite earlier ones). -/
theorem claim8_counterexample :
    dupAlphabet.length = 16 ∧ ¬dupAlphabet.Nodup ∧
    emojiEncode [65] dupAlphabet = some ['😃', '😀'] ∧
    emojiDecode ['😃', '😀'] dupAlphabet = Except.ok [65] ∧
    decIdx dupAlphabet '😀' = some 1 :=
  ⟨by decide, by decide, by decide, by decide, by decide⟩

/-- C8 (amended): no validation is performed anywhere: for **any** 16-entry
symbol array — duplicates included — encoding any text silently succeeds;
nothing in the code can raise a configuration error. -/
theorem claim8_amended (A : List Char) (h16 : A.length = 16)
    (s : List Nat) (hs : ∀ c ∈ s, ScalarValue c) :
    ∃ es, emojiEncode s A = some es := by
  exact emojiEncodeBytes_isSome A h16 (utf8Encode s) (utf8Encode_lt_256 s hs)

/-- C8 witness: encoding "A" under the duplicate-bearing set succeeds. -/
theorem claim8_amended_witness :
    dupAlphabet.length = 16 ∧ (∀ c ∈ ([65] : List Nat), ScalarValue c) ∧
    ∃ es, emojiEncode [65] dupAlphabet = some es :=
  ⟨by decide, by decide, claim8_amended dupAlphabet (by decide) [65] (by decide)⟩

/-- C9 counterexample: the symbol pair "😗😗" maps to the byte 0xFF, which is
not valid UTF-8, yet decode does **not** fail: the replacement-mode
`TextDecoder` returns the string U+FFFD and `emojiDecode` answers `ok`. -/
theorem claim9_counterexample :
    pairsToBytes [15, 15] = [255] ∧
    utf8DecodeReplace [255] = [65533] ∧
    emojiDecode ['😗', '😗'] BASE_EMO.toList = Except.ok [65533] :=
  ⟨by decide, by decide, by decide⟩

/-- C9 (amended): once the unknown-symbol and odd-length checks pass, decode
**always** returns `ok`: the reassembled bytes go through the
replacement-mode `TextDecoder`, which substitutes U+FFFD for every invalid
subsequence instead of raising an `InvalidTextEncodingError` (no such error
exists in the source). -/
theorem claim9_amended (A input : List Char)
    (hknown : ∀ c ∈ input, c ∈ A) (heven : input.length % 2 = 0) :
    ∃ ns, toNibbles A input = Except.ok ns ∧
      emojiDecode input A = Except.ok (utf8DecodeReplace (pairsToBytes ns)) := by
  obtain ⟨ns, hns, hlen⟩ := toNibbles_known A input hknown
  refine ⟨ns, hns, ?_⟩
  rw [emojiDecode_eq, hns]
  dsimp only
  rw [if_neg (by omega)]

/-- C9 witness: the invalid-byte pair "😗😗" still yields an `ok` result. -/
theorem claim9_amended_witness :
    (∀ c ∈ (['😗', '😗'] : List Char), c ∈ BASE_EMO.toList) ∧
    (['😗', '😗'] : List Char).length % 2 = 0 ∧
    ∃ ns, toNibbles BASE_EMO.toList ['😗', '😗'] = Except.ok ns ∧
      emojiDecode ['😗', '😗'] BASE_EMO.toList =
        Except.ok (utf8DecodeReplace (pairsToBytes ns)) :=
  ⟨by decide, by decide,
   claim9_amended BASE_EMO.toList ['😗', '😗'] (by decide) (by decide)⟩

/-- C10: `seededShuffle` returns a permutation of its input — the same
entries with the same multiplicities, merely reordered (in the embedding the
input value itself is untouched: the source copies with `array.slice()`
before swapping, so `BASE_EMO` is never mutated) — and hence every
passphrase-derived emoji set keeps the 16-distinct-symbol invariant of
`BASE_EMO`. -/
theorem claim10_shuffle_perm (a : Array Char) (p : List Nat) :
    (seededShuffle a p).toList.Perm a.toList ∧
    (seededShuffle BASE_EMO p).size = 16 ∧
    (seededShuffle BASE_EMO p).toList.Nodup := by
  refine ⟨seededShuffle_toList_perm a p, ?_, ?_⟩
  · have h := (seededShuffle_toList_perm BASE_EMO p).length_eq
    rw [Array.length_toList, Array.length_toList] at h
    rw [h]
    rfl
  · exact (seededShuffle_toList_perm BASE_EMO p).symm.nodup (by decide)

end EmoCrypt
